import Mathlib

/-!
Verification of the section-extraction core of the Insurance Claims Analysis
System (`src/utils/pdf_processor.py`).

Python strings are embedded as `List Char`; each Python helper is translated
to a total Lean function with the same name where possible.  Pages are given
to the extraction driver as the raw per-page text (the external PDF backend is
out of scope); `uuid.uuid4()` is modelled by an explicit stream `ids : Nat →
List Char` of fresh identifiers consumed left to right.
-/

namespace ICAS

/-- Python whitespace, as used by `str.strip()`, `str.split()` and `\s`. -/
def pySpace (c : Char) : Bool :=
  c = ' ' || c = '\t' || c = '\n' || c = '\r' || c = '\x0b' || c = '\x0c'

/-- Python `str.strip()`: remove leading and trailing whitespace. -/
def strip (l : List Char) : List Char :=
  List.rdropWhile pySpace (List.dropWhile pySpace l)

/-- Python `str.lower()` (ASCII letters). -/
def lowerAll (l : List Char) : List Char := l.map Char.toLower

/-- Python `str.endswith('.')`. -/
def endsWithDot : List Char → Bool
  | [] => false
  | [c] => c = '.'
  | _ :: c :: cs => endsWithDot (c :: cs)

/-- Worker for Python `str.split()` (split on whitespace runs, no empties):
`acc` is the word currently being built. -/
def wordsGo : List Char → List Char → List (List Char)
  | acc, [] => if acc = [] then [] else [acc]
  | acc, c :: cs =>
    if pySpace c then
      if acc = [] then wordsGo [] cs else acc :: wordsGo [] cs
    else wordsGo (acc ++ [c]) cs

/-- Python `str.split()` with no argument. -/
def words (l : List Char) : List (List Char) := wordsGo [] l

/-- Python `" ".join(ws)`. -/
def joinSp : List (List Char) → List Char
  | [] => []
  | [w] => w
  | w :: x :: ws => w ++ ' ' :: joinSp (x :: ws)

/-- The whitespace normalization `" ".join(s.split())` used when emitting
section records. -/
def normalizeWs (l : List Char) : List Char := joinSp (words l)

/-- Does the string start with a whitespace character (the `\s+` tail of the
enumerator regex, which only needs one character to succeed)? -/
def hasSpaceHead : List Char → Bool
  | [] => false
  | c :: _ => pySpace c

/-- Character class `[ivx]` of the roman-numeral enumerator alternative. -/
def isIvx (c : Char) : Bool := c = 'i' || c = 'v' || c = 'x'

/-- Regex alternative `\d{1,2}\.` followed by `\s+`. -/
def enumAlt1 : List Char → Bool
  | a :: '.' :: r => a.isDigit && hasSpaceHead r
  | a :: b :: '.' :: r => a.isDigit && b.isDigit && hasSpaceHead r
  | _ => false

/-- Regex alternative `[A-Z]\.` followed by `\s+`. -/
def enumAlt2 : List Char → Bool
  | a :: '.' :: r => a.isUpper && hasSpaceHead r
  | _ => false

/-- Regex alternative `\([a-z]\)` followed by `\s+`. -/
def enumAlt3 : List Char → Bool
  | '(' :: a :: ')' :: r => a.isLower && hasSpaceHead r
  | _ => false

/-- Regex alternative `\([ivx]+\)` followed by `\s+`. -/
def enumAlt4 : List Char → Bool
  | '(' :: r =>
    !(r.takeWhile isIvx).isEmpty &&
      (match r.dropWhile isIvx with
       | ')' :: r2 => hasSpaceHead r2
       | _ => false)
  | _ => false

/-- Regex alternative `•` followed by `\s+`. -/
def enumAlt5 : List Char → Bool
  | '•' :: r => hasSpaceHead r
  | _ => false

/-- The enumerator test
`re.match(r'^\s*(\d\x7b1,2\x7d\.|[A-Z]\.|\([a-z]\)|\([ivx]+\)|•)\s+', line)`
of `is_title`.  All five alternatives start with a non-whitespace character,
so `\s*` must consume exactly the leading whitespace run, and a match exists
iff one of the alternatives matches there. -/
def enumMatch (l : List Char) : Bool :=
  enumAlt1 (l.dropWhile pySpace) || enumAlt2 (l.dropWhile pySpace) ||
    enumAlt3 (l.dropWhile pySpace) || enumAlt4 (l.dropWhile pySpace) ||
    enumAlt5 (l.dropWhile pySpace)

/-- A cased character (ASCII). -/
def cased (c : Char) : Bool := c.isUpper || c.isLower

/-- Python `str.isupper()`: at least one cased character and no lowercase one. -/
def pyIsUpper (l : List Char) : Bool := l.any cased && l.all (fun c => !c.isLower)

/-- Scanner for Python `str.istitle()`: first flag says whether the previous
character was cased, second whether a cased character has been seen. -/
def istitleGo : Bool → Bool → List Char → Bool
  | _, seen, [] => seen
  | prev, seen, c :: cs =>
    if c.isUpper then
      if prev then false else istitleGo true true cs
    else if c.isLower then
      if prev then istitleGo true true cs else false
    else istitleGo false seen cs

/-- Python `str.istitle()`. -/
def pyIsTitle (l : List Char) : Bool := istitleGo false false l

/-- `is_title` from `pdf_processor.py`. -/
def is_title (line : List Char) : Bool :=
  if strip line = [] ∨ 120 < (strip line).length then false
  else if endsWithDot (strip line) then false
  else if enumMatch (strip line) then true
  else if (words (strip line)).length < 8 then
    if pyIsUpper (strip line) then true
    else if pyIsTitle (strip line) then true
    else false
  else false

/-- The fixed denylist `junk_keywords` of `is_junk`. -/
def junk_keywords : List (List Char) :=
  ["uin:".toList, "irda".toList, "regn. no.".toList, "reg. no.".toList,
   "cin:".toList, "gstin".toList, "subject matter of solicitation".toList,
   "trade logo".toList, "corporate office".toList, "registered office".toList,
   "toll-free".toList, "website:".toList, "e-mail".toList, ".com".toList,
   ".in".toList, "confidential".toList, "internal use".toList]

/-- Python `kw in s`: contiguous-substring test. -/
def containsKw (s kw : List Char) : Bool := decide (kw <:+: s)

/-- The `page\s*\d+` branch of the page-number regex, anchored on both
sides.  `\s*` and `\d+` are deterministic here since whitespace and digits
are disjoint and the match must end the string. -/
def matchPage (l : List Char) : Bool :=
  if l.take 4 = "page".toList then
    !((l.drop 4).dropWhile pySpace).isEmpty &&
      ((l.drop 4).dropWhile pySpace).all Char.isDigit
  else false

/-- The `\d+\s*of\s*\d+` branch of the page-number regex, anchored on both
sides. -/
def matchNofM (l : List Char) : Bool :=
  if l.takeWhile Char.isDigit = [] then false
  else if ((l.dropWhile Char.isDigit).dropWhile pySpace).take 2 = "of".toList then
    !((((l.dropWhile Char.isDigit).dropWhile pySpace).drop 2).dropWhile pySpace).isEmpty &&
      ((((l.dropWhile Char.isDigit).dropWhile pySpace).drop 2).dropWhile pySpace).all Char.isDigit
  else false

/-- `re.search(r'^(page\s*\d+|\d+\s*of\s*\d+)$', s)` of `is_junk`. -/
def pageNumRe (l : List Char) : Bool := matchPage l || matchNofM l

/-- `is_junk` from `pdf_processor.py`. -/
def is_junk (line : List Char) : Bool :=
  if lowerAll (strip line) = [] then true
  else if junk_keywords.any (containsKw (lowerAll (strip line))) then true
  else if pageNumRe (lowerAll (strip line)) then true
  else false

/-- One emitted section record (the dictionary appended to `structured_data`). -/
structure SectionRecord where
  id : List Char
  page_number : Nat
  title : List Char
  text : List Char
  source : List Char
deriving DecidableEq

/-- Python `text.split('\n')`: split on newlines, keeping empty pieces. -/
def splitLines : List Char → List (List Char)
  | [] => [[]]
  | c :: cs =>
    if c = '\n' then [] :: splitLines cs
    else
      match splitLines cs with
      | [] => [[c]]
      | l :: ls => (c :: l) :: ls

/-- The literal default title `"General Information"`. -/
def defaultTitle : List Char := "General Information".toList

/-- The per-page line loop of `extract_structured_sections`.  Arguments after
the fixed id stream, source path and page number: the current title, the
accumulated text block, the index of the next fresh id, and the remaining
lines.  Returns the records emitted on this page (in emission order) together
with the next fresh-id index. -/
def pageStep (ids : Nat → List Char) (src : List Char) (pn : Nat) :
    List Char → List Char → Nat → List (List Char) → List SectionRecord × Nat
  | title, block, k, [] =>
    if strip block = [] then ([], k)
    else ([⟨ids k, pn, title, normalizeWs block, src⟩], k + 1)
  | title, block, k, line :: rest =>
    if is_title line then
      if strip block = [] then
        pageStep ids src pn (strip line) [] k rest
      else
        (⟨ids k, pn, title, normalizeWs block, src⟩ ::
            (pageStep ids src pn (strip line) [] (k + 1) rest).1,
          (pageStep ids src pn (strip line) [] (k + 1) rest).2)
    else if is_junk line then pageStep ids src pn title block k rest
    else pageStep ids src pn title (block ++ ' ' :: strip line) k rest

/-- The page loop of `extract_structured_sections`: `n` is the 0-based index
of the next page (records carry `n + 1`), `k` the index of the next fresh id. -/
def extractPages (ids : Nat → List Char) (src : List Char) :
    Nat → Nat → List (List Char) → List SectionRecord × Nat
  | _, k, [] => ([], k)
  | n, k, pg :: rest =>
    ((pageStep ids src (n + 1) defaultTitle [] k (splitLines pg)).1 ++
        (extractPages ids src (n + 1)
          (pageStep ids src (n + 1) defaultTitle [] k (splitLines pg)).2 rest).1,
      (extractPages ids src (n + 1)
        (pageStep ids src (n + 1) defaultTitle [] k (splitLines pg)).2 rest).2)

/-- `extract_structured_sections` from `pdf_processor.py`, over the ordered
list of per-page extracted texts. -/
def extract_structured_sections (ids : Nat → List Char) (pdf_path : List Char)
    (pages : List (List Char)) : List SectionRecord :=
  (extractPages ids pdf_path 0 0 pages).1

/-- All fields of a record except the freshly generated `id`. -/
def recKey (r : SectionRecord) : Nat × List Char × List Char × List Char :=
  (r.page_number, r.title, r.text, r.source)

/-- A degenerate id stream, used to state id-independence. -/
def idsNil : Nat → List Char := fun _ => []

/-- The id-stripped emission sequence of a single page processed from the
fresh accumulator state (default title, empty block). -/
def pageEmits (src : List Char) (n : Nat) (pg : List Char) :
    List (Nat × List Char × List Char × List Char) :=
  (pageStep idsNil src (n + 1) defaultTitle [] 0 (splitLines pg)).1.map recKey

/-- Concatenation of the id-stripped per-page emission sequences, each page
started from the fresh accumulator state. -/
def pagesEmits (src : List Char) :
    Nat → List (List Char) → List (Nat × List Char × List Char × List Char)
  | _, [] => []
  | n, pg :: rest => pageEmits src n pg ++ pagesEmits src (n + 1) rest

/-- The single-page text of the end-to-end example of the spec (its five
lines joined by newlines, as the PDF backend would hand them over). -/
def c1page : List Char :=
  "REVENUE SUMMARY\nTotal income was 500.\nPage 1\n1. Risks\nRisk text here.".toList

/-- A short all-caps heading padded with 120 trailing blanks: 121 characters
long, but stripped to 1 character before the length test of `is_title`. -/
def c2bad : List Char := 'A' :: List.replicate 120 ' '

/-- The page-number shape named by the spec: the full line is either
"page" followed by an (optional) whitespace run and digits, or digits
followed by optional whitespace, "of", optional whitespace and digits. -/
def PagePatternSpec (l : List Char) : Prop :=
  (∃ sp d, l = "page".toList ++ sp ++ d ∧ (∀ c ∈ sp, pySpace c = true) ∧
    d ≠ [] ∧ (∀ c ∈ d, c.isDigit = true)) ∨
  (∃ d1 sp1 sp2 d2, l = d1 ++ sp1 ++ "of".toList ++ sp2 ++ d2 ∧
    d1 ≠ [] ∧ (∀ c ∈ d1, c.isDigit = true) ∧ (∀ c ∈ sp1, pySpace c = true) ∧
    (∀ c ∈ sp2, pySpace c = true) ∧ d2 ≠ [] ∧ (∀ c ∈ d2, c.isDigit = true))

/-- The junk condition exactly as the spec words it: blank after trimming, or
a denylist keyword occurs as a substring of the trimmed lowercased line, or
the trimmed lowercased line is a full page-number pattern. -/
def junkSpec (s : List Char) : Prop :=
  strip s = [] ∨
    (∃ kw ∈ junk_keywords, kw <:+: lowerAll (strip s)) ∨
    PagePatternSpec (lowerAll (strip s))

end ICAS

namespace ICAS

theorem endsWithDot_concat (u : List Char) : endsWithDot (u ++ ['.']) = true := by
  induction u with
  | nil => rfl
  | cons c cs ih =>
    cases cs with
    | nil => rfl
    | cons d ds => simpa [endsWithDot] using ih

theorem strip_concat_dot (t : List Char) :
    strip (t ++ ['.']) = t.dropWhile pySpace ++ ['.'] := by
  have hdot : ¬ pySpace '.' = true := by decide
  have h1 : List.dropWhile pySpace (t ++ ['.']) = t.dropWhile pySpace ++ ['.'] := by
    rw [List.dropWhile_append]
    split
    · next h =>
      rw [List.isEmpty_iff] at h
      rw [h, List.nil_append, List.dropWhile_cons_of_neg hdot]
    · rfl
  rw [strip, h1, List.rdropWhile_concat_neg _ _ _ hdot]

/-- C7: a line whose last character is a period is never a title: either it is
rejected by the length guard, or the trimmed line still ends with the period
and is rejected by the `endswith('.')` guard. -/
theorem title_rejects_trailing_period (t : List Char) :
    is_title (t ++ ['.']) = false := by
  unfold is_title
  rw [strip_concat_dot]
  by_cases hc :
      (t.dropWhile pySpace ++ ['.'] : List Char) = [] ∨
        120 < (t.dropWhile pySpace ++ ['.']).length
  · rw [if_pos hc]
  · rw [if_neg hc, if_pos (endsWithDot_concat _)]

/-- C2 counterexample: a 121-character line (one letter and 120 trailing
blanks) is non-empty and longer than 120 characters, yet `is_title` accepts
it, because the length guard looks at the stripped line. -/
theorem long_line_title_counterexample :
    c2bad ≠ [] ∧ 120 < c2bad.length ∧ is_title c2bad = true := by decide

/-- C2 (amended): every line whose stripped form is longer than 120
characters is rejected by `is_title`. -/
theorem title_rejects_long_stripped (s : List Char) (h : 120 < (strip s).length) :
    is_title s = false := by
  unfold is_title
  rw [if_pos (Or.inr h)]

theorem title_rejects_long_stripped_witness :
    120 < (strip (List.replicate 121 'a')).length ∧
      is_title (List.replicate 121 'a') = false :=
  ⟨by decide, title_rejects_long_stripped _ (by decide)⟩

/-- C1 counterexample: on the spec's five-line example page the accumulator
does emit two records, but the first one is titled "REVENUE SUMMARY" (that
line is itself detected as a title), not "General Information". -/
theorem c1_example_counterexample :
    ¬ ((extract_structured_sections idsNil [] [c1page]).length = 2 ∧
      ((extract_structured_sections idsNil [] [c1page]).map recKey).head? =
        some (1, "General Information".toList,
          "REVENUE SUMMARY Total income was 500.".toList, [])) := by decide

/-- C1 (amended): on the example page the accumulator emits exactly two
records: first title "REVENUE SUMMARY" with text "Total income was 500.",
then title "1. Risks" with text "Risk text here.". -/
theorem c1_example_sections :
    (extract_structured_sections idsNil [] [c1page]).map recKey =
      [(1, "REVENUE SUMMARY".toList, "Total income was 500.".toList, []),
       (1, "1. Risks".toList, "Risk text here.".toList, [])] := by decide

theorem wordsGo_ne_nil_of_acc {acc : List Char} (h : acc ≠ []) :
    ∀ l : List Char, wordsGo acc l ≠ [] := by
  intro l
  induction l generalizing acc with
  | nil => simp [wordsGo, h]
  | cons c cs ih =>
    by_cases hc : pySpace c
    · simp [wordsGo, hc, h]
    · simpa [wordsGo, hc] using ih (by simp)

theorem wordsGo_mem : ∀ (l : List Char) (acc : List Char),
    (∀ c ∈ acc, pySpace c = false) →
      ∀ w ∈ wordsGo acc l, w ≠ [] ∧ ∀ c ∈ w, pySpace c = false := by
  intro l
  induction l with
  | nil =>
    intro acc hacc w hw
    by_cases ha : acc = []
    · simp [wordsGo, ha] at hw
    · simp only [wordsGo, if_neg ha, List.mem_singleton] at hw
      exact hw ▸ ⟨ha, hacc⟩
  | cons c cs ih =>
    intro acc hacc w hw
    by_cases hc : pySpace c
    · by_cases ha : acc = []
      · rw [wordsGo, if_pos hc, if_pos ha] at hw
        exact ih [] (by simp) w hw
      · rw [wordsGo, if_pos hc, if_neg ha] at hw
        rcases List.mem_cons.1 hw with h | h
        · exact h ▸ ⟨ha, hacc⟩
        · exact ih [] (by simp) w h
    · rw [wordsGo, if_neg hc] at hw
      refine ih (acc ++ [c]) ?_ w hw
      intro x hx
      rcases List.mem_append.1 hx with h | h
      · exact hacc x h
      · rw [List.mem_singleton.1 h]
        exact Bool.eq_false_iff.2 hc

theorem wordsGo_append_word : ∀ (w : List Char),
    (∀ c ∈ w, pySpace c = false) →
      ∀ (acc rest : List Char), wordsGo acc (w ++ rest) = wordsGo (acc ++ w) rest := by
  intro w
  induction w with
  | nil => intro _ acc rest; simp
  | cons c cs ih =>
    intro hw acc rest
    have hc : ¬ pySpace c = true := by
      simp [hw c (List.mem_cons_self _ _)]
    rw [List.cons_append, wordsGo, if_neg hc,
      ih (fun x hx => hw x (List.mem_cons_of_mem _ hx)) (acc ++ [c]) rest,
      List.append_assoc, List.singleton_append]

theorem words_joinSp : ∀ (ws : List (List Char)),
    (∀ w ∈ ws, w ≠ [] ∧ ∀ c ∈ w, pySpace c = false) → words (joinSp ws) = ws := by
  intro ws
  induction ws with
  | nil => intro _; rfl
  | cons w tail ih =>
    intro h
    obtain ⟨hwne, hwsp⟩ := h w (List.mem_cons_self _ _)
    cases tail with
    | nil =>
      show wordsGo [] (joinSp [w]) = [w]
      have : joinSp [w] = w := rfl
      rw [this, ← List.append_nil w, wordsGo_append_word w hwsp [] []]
      simp [wordsGo, hwne]
    | cons x tail2 =>
      show wordsGo [] (joinSp (w :: x :: tail2)) = w :: x :: tail2
      have hj : joinSp (w :: x :: tail2) = w ++ ' ' :: joinSp (x :: tail2) := rfl
      rw [hj, wordsGo_append_word w hwsp [] (' ' :: joinSp (x :: tail2)),
        List.nil_append, wordsGo, if_pos (by decide : pySpace ' ' = true), if_neg hwne]
      have := ih (fun v hv => h v (List.mem_cons_of_mem _ hv))
      rw [words] at this
      rw [this]

/-- C8: the whitespace normalization `" ".join(s.split())` used when emitting
records is idempotent. -/
theorem normalizeWs_idempotent (s : List Char) :
    normalizeWs (normalizeWs s) = normalizeWs s := by
  unfold normalizeWs
  rw [words_joinSp (words s) (fun w hw => wordsGo_mem s [] (by simp) w hw)]

theorem strip_ne_nil_exists {b : List Char} (h : strip b ≠ []) :
    ∃ c ∈ b, pySpace c = false := by
  by_contra hall
  push_neg at hall
  have hsp : ∀ c ∈ b, pySpace c = true := by
    intro c hc
    have := hall c hc
    revert this
    cases pySpace c <;> simp
  have h1 : List.dropWhile pySpace b = [] := List.dropWhile_eq_nil_iff.2 hsp
  rw [strip, h1, List.rdropWhile_nil] at h
  exact h rfl

theorem wordsGo_ne_nil_of_nonspace : ∀ (l : List Char) (acc : List Char),
    (∃ c ∈ l, pySpace c = false) → wordsGo acc l ≠ [] := by
  intro l
  induction l with
  | nil => intro acc h; simp at h
  | cons c cs ih =>
    intro acc h
    by_cases hc : pySpace c
    · obtain ⟨x, hx, hxs⟩ := h
      have hcs : ∃ x ∈ cs, pySpace x = false := by
        rcases List.mem_cons.1 hx with he | hm
        · rw [he, hc] at hxs; cases hxs
        · exact ⟨x, hm, hxs⟩
      by_cases ha : acc = []
      · rw [wordsGo, if_pos hc, if_pos ha]
        exact ih [] hcs
      · rw [wordsGo, if_pos hc, if_neg ha]
        simp
    · rw [wordsGo, if_neg hc]
      exact wordsGo_ne_nil_of_acc (by simp) cs

theorem normalizeWs_ne_nil {b : List Char} (h : strip b ≠ []) :
    normalizeWs b ≠ [] := by
  obtain ⟨c, hc, hcs⟩ := strip_ne_nil_exists h
  have hw : words b ≠ [] := wordsGo_ne_nil_of_nonspace b [] ⟨c, hc, hcs⟩
  unfold normalizeWs
  cases hws : words b with
  | nil => exact absurd hws hw
  | cons w tail =>
    have hmem : w ∈ words b := by rw [hws]; exact List.mem_cons_self _ _
    have hwne : w ≠ [] := (wordsGo_mem b [] (by simp) w hmem).1
    cases tail with
    | nil => simpa [joinSp] using hwne
    | cons x tail2 => simp [joinSp]

theorem pageStep_text_ne (ids : Nat → List Char) (src : List Char) (pn : Nat) :
    ∀ (ls : List (List Char)) (t b : List Char) (k : Nat),
      ∀ r ∈ (pageStep ids src pn t b k ls).1, r.text ≠ [] := by
  intro ls
  induction ls with
  | nil =>
    intro t b k r hr
    by_cases hb : strip b = []
    · simp [pageStep, hb] at hr
    · rw [pageStep, if_neg hb] at hr
      rw [List.mem_singleton.1 hr]
      exact normalizeWs_ne_nil hb
  | cons line rest ih =>
    intro t b k r hr
    rw [pageStep] at hr
    by_cases ht : is_title line = true
    · rw [if_pos ht] at hr
      by_cases hb : strip b = []
      · rw [if_pos hb] at hr
        exact ih _ _ _ r hr
      · rw [if_neg hb] at hr
        rcases List.mem_cons.1 hr with he | hm
        · rw [he]; exact normalizeWs_ne_nil hb
        · exact ih _ _ _ r hm
    · rw [if_neg ht] at hr
      by_cases hj : is_junk line = true
      · rw [if_pos hj] at hr
        exact ih _ _ _ r hr
      · rw [if_neg hj] at hr
        exact ih _ _ _ r hr

theorem extractPages_text_ne (ids : Nat → List Char) (src : List Char) :
    ∀ (pgs : List (List Char)) (n k : Nat),
      ∀ r ∈ (extractPages ids src n k pgs).1, r.text ≠ [] := by
  intro pgs
  induction pgs with
  | nil => intro n k r hr; simp [extractPages] at hr
  | cons pg rest ih =>
    intro n k r hr
    rw [extractPages] at hr
    rcases List.mem_append.1 hr with hm | hm
    · exact pageStep_text_ne ids src (n + 1) _ _ _ _ r hm
    · exact ih _ _ r hm

/-- C3: a section record is only ever appended with a non-empty (normalized)
text, so every extracted record has non-empty text; a title line met while
the accumulated block is blank emits nothing and only replaces the title;
and a page ending with a blank block emits no final record. -/
theorem emission_requires_nonempty_block :
    (∀ (ids : Nat → List Char) (src : List Char) (pgs : List (List Char)),
        ∀ r ∈ extract_structured_sections ids src pgs, r.text ≠ []) ∧
    (∀ (ids : Nat → List Char) (src : List Char) (pn : Nat)
        (t b : List Char) (k : Nat) (line : List Char) (rest : List (List Char)),
        is_title line = true → strip b = [] →
          pageStep ids src pn t b k (line :: rest) =
            pageStep ids src pn (strip line) [] k rest) ∧
    (∀ (ids : Nat → List Char) (src : List Char) (pn : Nat)
        (t b : List Char) (k : Nat), strip b = [] →
          pageStep ids src pn t b k [] = ([], k)) := by
  refine ⟨?_, ?_, ?_⟩
  · intro ids src pgs r hr
    exact extractPages_text_ne ids src pgs 0 0 r hr
  · intro ids src pn t b k line rest ht hb
    rw [pageStep, if_pos ht, if_pos hb]
  · intro ids src pn t b k hb
    rw [pageStep, if_pos hb]

theorem emission_requires_nonempty_block_witness :
    (⟨[], 1, defaultTitle, "Hello world".toList, []⟩ : SectionRecord).text ≠ [] ∧
    pageStep idsNil [] 1 defaultTitle [] 0 ["1. Risks".toList] =
      pageStep idsNil [] 1 (strip "1. Risks".toList) [] 0 [] ∧
    pageStep idsNil [] 1 defaultTitle [] 0 [] = ([], 0) :=
  ⟨emission_requires_nonempty_block.1 idsNil [] ["Hello world".toList] _ (by decide),
   emission_requires_nonempty_block.2.1 idsNil [] 1 defaultTitle [] 0
     "1. Risks".toList [] (by decide) (by decide),
   emission_requires_nonempty_block.2.2 idsNil [] 1 defaultTitle [] 0 (by decide)⟩

theorem pageStep_map_recKey (src : List Char) (pn : Nat) :
    ∀ (ls : List (List Char)) (t b : List Char) (k k' : Nat)
      (ids ids' : Nat → List Char),
      (pageStep ids src pn t b k ls).1.map recKey =
        (pageStep ids' src pn t b k' ls).1.map recKey := by
  intro ls
  induction ls with
  | nil =>
    intro t b k k' ids ids'
    by_cases hb : strip b = []
    · simp [pageStep, hb]
    · simp [pageStep, hb, recKey]
  | cons line rest ih =>
    intro t b k k' ids ids'
    rw [pageStep, pageStep]
    by_cases ht : is_title line = true
    · rw [if_pos ht, if_pos ht]
      by_cases hb : strip b = []
      · rw [if_pos hb, if_pos hb]
        exact ih _ _ _ _ _ _
      · rw [if_neg hb, if_neg hb]
        simp only [List.map_cons, recKey]
        rw [ih _ _ (k + 1) (k' + 1) ids ids']
    · rw [if_neg ht, if_neg ht]
      by_cases hj : is_junk line = true
      · rw [if_pos hj, if_pos hj]; exact ih _ _ _ _ _ _
      · rw [if_neg hj, if_neg hj]; exact ih _ _ _ _ _ _

theorem extractPages_map_recKey (ids : Nat → List Char) (src : List Char) :
    ∀ (pgs : List (List Char)) (n k : Nat),
      (extractPages ids src n k pgs).1.map recKey = pagesEmits src n pgs := by
  intro pgs
  induction pgs with
  | nil => intro n k; rfl
  | cons pg rest ih =>
    intro n k
    rw [extractPages, pagesEmits, List.map_append, ih, pageEmits,
      pageStep_map_recKey src (n + 1) (splitLines pg) defaultTitle [] k 0 ids idsNil]

theorem pageStep_page_number (ids : Nat → List Char) (src : List Char) (pn : Nat) :
    ∀ (ls : List (List Char)) (t b : List Char) (k : Nat),
      ∀ r ∈ (pageStep ids src pn t b k ls).1, r.page_number = pn := by
  intro ls
  induction ls with
  | nil =>
    intro t b k r hr
    by_cases hb : strip b = []
    · simp [pageStep, hb] at hr
    · rw [pageStep, if_neg hb] at hr
      rw [List.mem_singleton.1 hr]
  | cons line rest ih =>
    intro t b k r hr
    rw [pageStep] at hr
    by_cases ht : is_title line = true
    · rw [if_pos ht] at hr
      by_cases hb : strip b = []
      · rw [if_pos hb] at hr; exact ih _ _ _ r hr
      · rw [if_neg hb] at hr
        rcases List.mem_cons.1 hr with he | hm
        · rw [he]
        · exact ih _ _ _ r hm
    · rw [if_neg ht] at hr
      by_cases hj : is_junk line = true
      · rw [if_pos hj] at hr; exact ih _ _ _ r hr
      · rw [if_neg hj] at hr; exact ih _ _ _ r hr

theorem extractPages_page_number_lt (ids : Nat → List Char) (src : List Char) :
    ∀ (pgs : List (List Char)) (n k : Nat),
      ∀ r ∈ (extractPages ids src n k pgs).1, n < r.page_number := by
  intro pgs
  induction pgs with
  | nil => intro n k r hr; simp [extractPages] at hr
  | cons pg rest ih =>
    intro n k r hr
    rw [extractPages] at hr
    rcases List.mem_append.1 hr with hm | hm
    · rw [pageStep_page_number ids src (n + 1) _ _ _ _ r hm]
      exact Nat.lt_succ_self n
    · exact Nat.lt_trans (Nat.lt_succ_self n) (ih _ _ r hm)

theorem extractPages_pairwise (ids : Nat → List Char) (src : List Char) :
    ∀ (pgs : List (List Char)) (n k : Nat),
      ((extractPages ids src n k pgs).1).Pairwise
        (fun a b => a.page_number ≤ b.page_number) := by
  intro pgs
  induction pgs with
  | nil => intro n k; simp [extractPages]
  | cons pg rest ih =>
    intro n k
    rw [extractPages]
    refine List.pairwise_append.2 ⟨?_, ih _ _, ?_⟩
    · refine List.pairwise_of_forall_mem_list ?_
      intro a ha b hb
      rw [pageStep_page_number ids src (n + 1) _ _ _ _ a ha,
        pageStep_page_number ids src (n + 1) _ _ _ _ b hb]
    · intro a ha b hb
      rw [pageStep_page_number ids src (n + 1) _ _ _ _ a ha]
      exact Nat.le_of_lt (extractPages_page_number_lt ids src rest (n + 1) _ b hb)

/-- C4: every page is processed from a fresh accumulator — the page loop
starts with the default title and an empty block, and the id-stripped records
of a page do not depend on anything that happened on earlier pages (the id
stream position `k` is the only state carried across pages). -/
theorem page_state_reset (ids : Nat → List Char) (src : List Char)
    (n k : Nat) (pg : List Char) (rest : List (List Char)) :
    extractPages ids src n k (pg :: rest) =
      ((pageStep ids src (n + 1) defaultTitle [] k (splitLines pg)).1 ++
          (extractPages ids src (n + 1)
            (pageStep ids src (n + 1) defaultTitle [] k (splitLines pg)).2 rest).1,
        (extractPages ids src (n + 1)
          (pageStep ids src (n + 1) defaultTitle [] k (splitLines pg)).2 rest).2) ∧
      (pageStep ids src (n + 1) defaultTitle [] k (splitLines pg)).1.map recKey =
        pageEmits src n pg :=
  ⟨rfl, pageStep_map_recKey src (n + 1) (splitLines pg) defaultTitle [] k 0 ids idsNil⟩

/-- C5: the extracted records are ordered by non-decreasing page number, and
the id-stripped output is exactly the concatenation, in page order, of the
per-page emission sequences — no reordering, no dropping, no deduplication. -/
theorem output_order (ids : Nat → List Char) (src : List Char)
    (pgs : List (List Char)) :
    (extract_structured_sections ids src pgs).Pairwise
        (fun a b => a.page_number ≤ b.page_number) ∧
      (extract_structured_sections ids src pgs).map recKey = pagesEmits src 0 pgs :=
  ⟨extractPages_pairwise ids src pgs 0 0,
   extractPages_map_recKey ids src pgs 0 0⟩

/-- C10: the extraction is deterministic up to the generated ids — two runs
with different id streams produce record lists of the same length that agree
position by position on page number, title, text and source. -/
theorem extraction_deterministic_mod_id (ids1 ids2 : Nat → List Char)
    (src : List Char) (pgs : List (List Char)) :
    (extract_structured_sections ids1 src pgs).length =
        (extract_structured_sections ids2 src pgs).length ∧
      (extract_structured_sections ids1 src pgs).map recKey =
        (extract_structured_sections ids2 src pgs).map recKey := by
  have h : (extract_structured_sections ids1 src pgs).map recKey =
      (extract_structured_sections ids2 src pgs).map recKey := by
    rw [extract_structured_sections, extract_structured_sections,
      extractPages_map_recKey, extractPages_map_recKey]
  refine ⟨?_, h⟩
  have := congrArg List.length h
  simpa using this

theorem pySpace_not_isDigit {c : Char} (h : pySpace c = true) : c.isDigit = false := by
  rw [pySpace] at h
  simp only [Bool.or_eq_true, decide_eq_true_eq] at h
  rcases h with ((((h | h) | h) | h) | h) | h <;> subst h <;> decide

theorem isDigit_not_pySpace {c : Char} (h : c.isDigit = true) : pySpace c = false := by
  by_contra hs
  rw [Bool.not_eq_false] at hs
  rw [pySpace_not_isDigit hs] at h
  cases h

theorem matchPage_iff (l : List Char) :
    matchPage l = true ↔
      ∃ sp d, l = "page".toList ++ sp ++ d ∧ (∀ c ∈ sp, pySpace c = true) ∧
        d ≠ [] ∧ (∀ c ∈ d, c.isDigit = true) := by
  constructor
  · intro h
    rw [matchPage] at h
    by_cases h4 : l.take 4 = "page".toList
    · rw [if_pos h4] at h
      obtain ⟨hne, hdg⟩ := Bool.and_eq_true _ _ ▸ h
      refine ⟨(l.drop 4).takeWhile pySpace, (l.drop 4).dropWhile pySpace, ?_, ?_, ?_, ?_⟩
      · rw [List.append_assoc, List.takeWhile_append_dropWhile, ← h4,
          List.take_append_drop]
      · intro c hc; exact List.mem_takeWhile_imp hc
      · simpa [List.isEmpty_iff] using hne
      · intro c hc; exact List.all_eq_true.1 hdg c hc
    · rw [if_neg h4] at h
      cases h
  · rintro ⟨sp, d, hl, hsp, hdne, hdig⟩
    have hp4 : ("page".toList).length = 4 := rfl
    have hl' : l = "page".toList ++ (sp ++ d) := by rw [hl, List.append_assoc]
    have htake : l.take 4 = "page".toList := by rw [hl', List.take_left' hp4]
    have hdrop : l.drop 4 = sp ++ d := by rw [hl', List.drop_left' hp4]
    have hdw : (l.drop 4).dropWhile pySpace = d := by
      rw [hdrop, List.dropWhile_append_of_pos hsp]
      cases d with
      | nil => rfl
      | cons c t =>
        have hc : pySpace c = false :=
          isDigit_not_pySpace (hdig c (List.mem_cons_self _ _))
        exact List.dropWhile_cons_of_neg (by simp [hc])
    rw [matchPage, if_pos htake, hdw]
    simpa [List.isEmpty_iff, hdne, List.all_eq_true] using hdig

theorem takeWhile_digit_nil_after (sp rest : List Char)
    (hsp : ∀ c ∈ sp, pySpace c = true) (c : Char) (hc : c.isDigit = false) :
    (sp ++ c :: rest).takeWhile Char.isDigit = [] := by
  cases sp with
  | nil => exact List.takeWhile_cons_of_neg (by simp [hc])
  | cons x xs =>
    refine List.takeWhile_cons_of_neg ?_
    have hx : pySpace x = true := hsp x (List.mem_cons_self _ _)
    simp [pySpace_not_isDigit hx]

theorem dropWhile_digit_self_after (sp rest : List Char)
    (hsp : ∀ c ∈ sp, pySpace c = true) (c : Char) (hc : c.isDigit = false) :
    (sp ++ c :: rest).dropWhile Char.isDigit = sp ++ c :: rest := by
  cases sp with
  | nil => exact List.dropWhile_cons_of_neg (by simp [hc])
  | cons x xs =>
    have hx : pySpace x = true := hsp x (List.mem_cons_self _ _)
    exact List.dropWhile_cons_of_neg (by simp [pySpace_not_isDigit hx])

theorem matchNofM_iff (l : List Char) :
    matchNofM l = true ↔
      ∃ d1 sp1 sp2 d2, l = d1 ++ sp1 ++ "of".toList ++ sp2 ++ d2 ∧
        d1 ≠ [] ∧ (∀ c ∈ d1, c.isDigit = true) ∧ (∀ c ∈ sp1, pySpace c = true) ∧
        (∀ c ∈ sp2, pySpace c = true) ∧ d2 ≠ [] ∧ (∀ c ∈ d2, c.isDigit = true) := by
  constructor
  · intro h
    rw [matchNofM] at h
    by_cases h1 : l.takeWhile Char.isDigit = []
    · rw [if_pos h1] at h; cases h
    · rw [if_neg h1] at h
      by_cases h2 :
          ((l.dropWhile Char.isDigit).dropWhile pySpace).take 2 = "of".toList
      · rw [if_pos h2] at h
        obtain ⟨hne, hdg⟩ := Bool.and_eq_true _ _ ▸ h
        refine ⟨l.takeWhile Char.isDigit,
          (l.dropWhile Char.isDigit).takeWhile pySpace,
          (((l.dropWhile Char.isDigit).dropWhile pySpace).drop 2).takeWhile pySpace,
          (((l.dropWhile Char.isDigit).dropWhile pySpace).drop 2).dropWhile pySpace,
          ?_, h1, ?_, ?_, ?_, ?_, ?_⟩
        · rw [List.append_assoc, List.append_assoc, List.append_assoc,
            List.takeWhile_append_dropWhile, ← h2, List.take_append_drop,
            List.takeWhile_append_dropWhile, List.takeWhile_append_dropWhile]
        · intro c hc; exact List.mem_takeWhile_imp hc
        · intro c hc; exact List.mem_takeWhile_imp hc
        · intro c hc; exact List.mem_takeWhile_imp hc
        · simpa [List.isEmpty_iff] using hne
        · intro c hc; exact List.all_eq_true.1 hdg c hc
      · rw [if_neg h2] at h; cases h
  · rintro ⟨d1, sp1, sp2, d2, hl, hd1ne, hd1, hsp1, hsp2, hd2ne, hd2⟩
    have hof : "of".toList = ['o', 'f'] := rfl
    obtain ⟨c2, t2, hd2c⟩ : ∃ c t, d2 = c :: t := by
      cases d2 with
      | nil => exact absurd rfl hd2ne
      | cons c t => exact ⟨c, t, rfl⟩
    have hl' : l = d1 ++ (sp1 ++ ('o' :: 'f' :: (sp2 ++ d2))) := by
      rw [hl, hof]; simp [List.append_assoc]
    have htw : l.takeWhile Char.isDigit = d1 := by
      rw [hl', List.takeWhile_append_of_pos hd1,
        takeWhile_digit_nil_after sp1 _ hsp1 'o' (by decide), List.append_nil]
    have hdw : l.dropWhile Char.isDigit = sp1 ++ ('o' :: 'f' :: (sp2 ++ d2)) := by
      rw [hl', List.dropWhile_append_of_pos hd1,
        dropWhile_digit_self_after sp1 _ hsp1 'o' (by decide)]
    have hdw2 : (l.dropWhile Char.isDigit).dropWhile pySpace =
        'o' :: 'f' :: (sp2 ++ d2) := by
      rw [hdw, List.dropWhile_append_of_pos hsp1]
      exact List.dropWhile_cons_of_neg (by decide)
    have htk2 : ((l.dropWhile Char.isDigit).dropWhile pySpace).take 2 =
        "of".toList := by
      rw [hdw2, hof]; rfl
    have hdr2 : ((l.dropWhile Char.isDigit).dropWhile pySpace).drop 2 =
        sp2 ++ d2 := by
      rw [hdw2]; rfl
    have hdw3 : (((l.dropWhile Char.isDigit).dropWhile pySpace).drop 2).dropWhile
        pySpace = d2 := by
      rw [hdr2, List.dropWhile_append_of_pos hsp2, hd2c]
      refine List.dropWhile_cons_of_neg ?_
      have : c2.isDigit = true := hd2 c2 (by rw [hd2c]; exact List.mem_cons_self _ _)
      simp [isDigit_not_pySpace this]
    rw [matchNofM, if_neg (htw ▸ hd1ne), if_pos htk2, hdw3]
    simpa [List.isEmpty_iff, hd2ne, List.all_eq_true] using hd2

/-- C6: `is_junk` accepts a line exactly when the trimmed line is empty, or
the trimmed lowercased line contains a denylist keyword as a substring, or it
matches the page-number pattern in full. -/
theorem junk_characterization (s : List Char) : is_junk s = true ↔ junkSpec s := by
  rw [is_junk, junkSpec]
  by_cases h0 : lowerAll (strip s) = []
  · rw [if_pos h0]
    rw [lowerAll, List.map_eq_nil_iff] at h0
    exact iff_of_true rfl (Or.inl h0)
  · rw [if_neg h0]
    have h0' : ¬ strip s = [] := by
      intro hh; exact h0 (by rw [hh]; rfl)
    by_cases hkw : junk_keywords.any (containsKw (lowerAll (strip s))) = true
    · rw [if_pos hkw]
      refine iff_of_true rfl (Or.inr (Or.inl ?_))
      obtain ⟨kw, hmem, hc⟩ := List.any_eq_true.1 hkw
      exact ⟨kw, hmem, of_decide_eq_true hc⟩
    · rw [if_neg hkw]
      by_cases hre : pageNumRe (lowerAll (strip s)) = true
      · rw [if_pos hre]
        refine iff_of_true rfl (Or.inr (Or.inr ?_))
        rw [pageNumRe, Bool.or_eq_true] at hre
        unfold PagePatternSpec
        rcases hre with h | h
        · exact Or.inl ((matchPage_iff _).1 h)
        · exact Or.inr ((matchNofM_iff _).1 h)
      · rw [if_neg hre]
        refine iff_of_false (by simp) ?_
        rintro (h | h | h)
        · exact h0' h
        · obtain ⟨kw, hm, hi⟩ := h
          exact hkw (List.any_eq_true.2 ⟨kw, hm, decide_eq_true hi⟩)
        · refine hre ?_
          rw [pageNumRe, Bool.or_eq_true]
          unfold PagePatternSpec at h
          rcases h with h | h
          · exact Or.inl ((matchPage_iff _).2 h)
          · exact Or.inr ((matchNofM_iff _).2 h)

/-- C9: the classification predicates are total Lean functions; on every
string each of them yields a boolean. -/
theorem classifiers_total (s : List Char) :
    (is_title s = true ∨ is_title s = false) ∧
      (is_junk s = true ∨ is_junk s = false) := by
  cases h1 : is_title s <;> cases h2 : is_junk s <;> simp

end ICAS
